import Mathlib

set_option maxHeartbeats 1000000

/-!
Shallow embedding of the static-site blog front end
(`src/js/app.js`, `src/js/post-loader.js`, `src/js/search.js`).

Conventions of the embedding:
* JS strings are Lean `String`s; `String.prototype.includes` /
  `toLowerCase` / `trim` are modelled on the code-point list `String.data`
  (the UTF-16 code-unit vs code-point distinction and full Unicode case
  mapping are immaterial to every property proved here).
* JS `null`-able variables become `Option`; JS truthiness of a string is
  "non-empty", of an option "present and non-empty".
* Fallible JS code (exceptions) becomes `Except` / `Option`; where the
  page only catches-and-displays, the model records an `errorShown` flag.
-/

/-! ## Character-list helpers (JS string primitives) -/

/-- `startsWithL p l` : `p` is a leading block of `l`
(JS `String.prototype.startsWith`). -/
def startsWithL : List Char → List Char → Bool
  | [], _ => true
  | _ :: _, [] => false
  | p :: ps, c :: cs => p == c && startsWithL ps cs

/-- `containsSub needle hay` : `needle` occurs contiguously inside `hay`
(JS `String.prototype.includes`). -/
def containsSub (needle : List Char) : List Char → Bool
  | [] => startsWithL needle []
  | c :: cs => startsWithL needle (c :: cs) || containsSub needle cs

/-- JS `s.includes(sub)`. -/
def strIncludes (s sub : String) : Bool :=
  containsSub sub.data s.data

/-- Split at the first occurrence of `delim`, returning the part before and
the part after (used to model the lazy regex group in `parseFrontMatter`).
`none` when `delim` does not occur. -/
def splitFirstL (delim : List Char) : List Char → Option (List Char × List Char)
  | [] => if startsWithL delim [] then some ([], []) else none
  | c :: cs =>
    if startsWithL delim (c :: cs) then some ([], (c :: cs).drop delim.length)
    else
      match splitFirstL delim cs with
      | some (before, after) => some (c :: before, after)
      | none => none

/-- JS `String.prototype.split` with a one-character separator: always
returns at least one (possibly empty) piece, empty pieces kept. -/
def splitOnChar (sep : Char) : List Char → List (List Char)
  | [] => [[]]
  | c :: cs =>
    if c == sep then [] :: splitOnChar sep cs
    else
      match splitOnChar sep cs with
      | [] => [[c]]
      | h :: t => (c :: h) :: t

/-- JS `String.prototype.toLowerCase`, modelled per character (ASCII case
mapping; full Unicode case mapping is immaterial here). -/
def toLowerStr (s : String) : String :=
  String.mk (s.data.map Char.toLower)

/-- Whitespace for JS `String.prototype.trim` (the ASCII part of the
WhiteSpace/LineTerminator sets). -/
def isWsChar (c : Char) : Bool :=
  c == ' ' || c == '\t' || c == '\n' || c == Char.ofNat 13 || c == Char.ofNat 11 || c == Char.ofNat 12

def dropLeadingWs : List Char → List Char
  | [] => []
  | c :: cs => if isWsChar c then dropLeadingWs cs else c :: cs

/-- JS `s.trim()`: strip leading and trailing whitespace. -/
def trimStr (s : String) : String :=
  String.mk (dropLeadingWs ((dropLeadingWs s.data.reverse).reverse))

/-! ## Data model (`spec.md` §3, shapes used by `src/js/app.js`) -/

/-- A record of `posts.json` as consumed by the list page.  `tags = none`
models a `tags` field that is absent or not an array (the code guards every
use with `post.tags && Array.isArray(post.tags)` or `post.tags && …`).
Fields not consulted by the filtering/tag logic (`file`, `date`,
`category`) are omitted. -/
structure Post where
  title : String
  excerpt : String
  tags : Option (List String)
deriving DecidableEq, Repr

/-- JS truthiness of the `activeTag` variable (`null` and `''` are falsy). -/
def tagTruthy : Option String → Bool
  | none => false
  | some s => !(s == "")

/-! ## `src/js/app.js` : filtering and tag handling -/

/-- `filterPosts(searchQuery = '')` (`src/js/app.js` lines 111-132):
two sequential `Array.prototype.filter` passes over `allPosts`, the first
applied only when `activeTag` is truthy, the second only when
`searchQuery` is truthy (non-empty). -/
def filterPosts (allPosts : List Post) (activeTag : Option String)
    (searchQuery : String) : List Post :=
  let filtered := allPosts
  let filtered :=
    if tagTruthy activeTag then
      filtered.filter fun post =>
        match post.tags with
        | some ts => ts.contains (activeTag.getD "")
        | none => false
    else filtered
  if searchQuery == "" then filtered
  else
    let query := toLowerStr searchQuery
    filtered.filter fun post =>
      strIncludes (toLowerStr post.title) query ||
      strIncludes (toLowerStr post.excerpt) query ||
      (match post.tags with
       | some ts => ts.any fun tag => strIncludes (toLowerStr tag) query
       | none => false)

/-- Tag-step predicate as the (amended) claim words it: a present and
non-empty tag keeps exactly the posts whose `tags` contain it under exact
string equality; an absent — or present-but-empty, which the code's
truthiness test treats as absent — tag keeps everything. -/
def claimTagStep (activeTag : Option String) (post : Post) : Bool :=
  match activeTag with
  | none => true
  | some t =>
    if t == "" then true
    else
      match post.tags with
      | some ts => ts.contains t
      | none => false

/-- Query-step predicate as the claim words it: a non-empty query keeps
exactly the posts whose lowercased title, excerpt, or some lowercased tag
contains the lowercased query as a substring. -/
def claimQueryStep (query : String) (post : Post) : Bool :=
  if query == "" then true
  else
    let q := toLowerStr query
    strIncludes (toLowerStr post.title) q ||
    strIncludes (toLowerStr post.excerpt) q ||
    (match post.tags with
     | some ts => ts.any fun tag => strIncludes (toLowerStr tag) q
     | none => false)

/-- `handleTagClick` state update (`src/js/app.js` lines 90-106), restricted
to the `activeTag` assignment: `selectedTag` is the clicked button's
`data-tag` (the sentinel "all" button carries `''`). -/
def handleTagClick (selectedTag : String) (activeTag : Option String) :
    Option String :=
  if activeTag == some selectedTag || (selectedTag == "" && !(tagTruthy activeTag)) then
    none
  else if selectedTag == "" then none
  else some selectedTag

/-- Page state relevant to tag clicks and search: the loaded catalog, the
active tag, the rendered (visible) list, and whatever text currently sits
in the search input box. -/
structure PageState where
  allPosts : List Post
  activeTag : Option String
  visible : List Post
  searchText : String
deriving DecidableEq, Repr

/-- The rest of `handleTagClick`: after updating `activeTag` it calls
`filterPosts()` — with the **default** `searchQuery = ''` — and renders the
result.  The search input's text is never consulted. -/
def clickTag (selectedTag : String) (st : PageState) : PageState :=
  let newTag := handleTagClick selectedTag st.activeTag
  { st with activeTag := newTag
            visible := filterPosts st.allPosts newTag "" }

/-- `updateSearchResults(query)` (`src/js/app.js` lines 195-198), the
debounced search path: re-filters with the current `activeTag` and the
given query. -/
def updateSearchResults (query : String) (st : PageState) : PageState :=
  { st with visible := filterPosts st.allPosts st.activeTag query }

/-- A concrete post used in counterexamples. -/
def post0 : Post := { title := "t", excerpt := "e", tags := some ["a"] }

/-- `extractTags` (`src/js/app.js` lines 52-60) over well-shaped posts:
a `Set` accumulates tags in insertion order (`tagSet.add` keeps only first
occurrences), then `Array.from(tagSet).sort()` sorts.  `addToSet` is the
`Set.prototype.add` step; the final sort is modelled by insertion sort
under the lexicographic order on strings (the JS default comparator on
string elements). -/
def addToSet (acc : List String) (t : String) : List String :=
  if acc.contains t then acc else acc ++ [t]

def extractTags (posts : List Post) : List String :=
  let tagSet := posts.foldl
    (fun acc post =>
      match post.tags with
      | some ts => ts.foldl addToSet acc
      | none => acc)
    []
  List.insertionSort (· ≤ ·) tagSet

/-! ## JSON values and `JSON.parse` (used by `src/js/post-loader.js` and
by the `posts.json` load in `src/js/app.js`) -/

/-- A parsed JSON value.  JS numbers are IEEE floats; no claim inspects a
numeric value, so a number is carried as its literal text. -/
inductive Json where
  | null
  | bool (b : Bool)
  | num (raw : String)
  | str (s : String)
  | arr (elems : List Json)
  | obj (fields : List (String × Json))

mutual

/-- Structural equality on JSON values (models `Set` membership for the
primitive values the code actually stores; the contents of the tag set
are never consulted by a claim). -/
def jsonBeq : Json → Json → Bool
  | .null, .null => true
  | .bool a, .bool b => a == b
  | .num a, .num b => a == b
  | .str a, .str b => a == b
  | .arr xs, .arr ys => jsonBeqL xs ys
  | .obj xs, .obj ys => jsonBeqF xs ys
  | _, _ => false

def jsonBeqL : List Json → List Json → Bool
  | [], [] => true
  | x :: xs, y :: ys => jsonBeq x y && jsonBeqL xs ys
  | _, _ => false

def jsonBeqF : List (String × Json) → List (String × Json) → Bool
  | [], [] => true
  | (k1, v1) :: xs, (k2, v2) :: ys => k1 == k2 && jsonBeq v1 v2 && jsonBeqF xs ys
  | _, _ => false

end

/-- The two quote characters (written by code to keep the apostrophe out
of the embedding text). -/
def dquoteC : Char := Char.ofNat 34

def squoteC : Char := Char.ofNat 39

def lcurlyC : Char := Char.ofNat 123

def rcurlyC : Char := Char.ofNat 125

/-- JSON insignificant whitespace. -/
def jsonWs (c : Char) : Bool :=
  c == ' ' || c == '\t' || c == '\n' || c == '\r'

def skipWs : List Char → List Char
  | [] => []
  | c :: cs => if jsonWs c then skipWs cs else c :: cs

def takeDigits : List Char → List Char × List Char
  | [] => ([], [])
  | c :: cs =>
    if c.isDigit then
      let (ds, rest) := takeDigits cs
      (c :: ds, rest)
    else ([], c :: cs)

/-- Optional exponent part of a JSON number. -/
def parseExpPart (acc : List Char) : List Char → Option (List Char × List Char)
  | [] => some (acc, [])
  | c :: cs =>
    if c == 'e' || c == 'E' then
      let (sgn, l2) :=
        match cs with
        | d :: ds => if d == '+' || d == '-' then ([d], ds) else ([], cs)
        | [] => ([], [])
      match takeDigits l2 with
      | ([], _) => none
      | (ds, rest) => some (acc ++ c :: (sgn ++ ds), rest)
    else some (acc, c :: cs)

/-- Optional fraction part of a JSON number, then the exponent part. -/
def parseFracPart (acc : List Char) : List Char → Option (List Char × List Char)
  | [] => some (acc, [])
  | c :: cs =>
    if c == '.' then
      match takeDigits cs with
      | ([], _) => none
      | (ds, rest) => parseExpPart (acc ++ c :: ds) rest
    else parseExpPart acc (c :: cs)

/-- A JSON number literal: `-?(0|[1-9][0-9]*)(.[0-9]+)?([eE][+-]?[0-9]+)?`. -/
def parseJsonNumber (l : List Char) : Option (List Char × List Char) :=
  let (sgn, l1) :=
    match l with
    | c :: cs => if c == '-' then ([c], cs) else ([], l)
    | [] => ([], l)
  match l1 with
  | [] => none
  | c :: cs =>
    if c == '0' then parseFracPart (sgn ++ [c]) cs
    else if c.isDigit then
      let (ds, rest) := takeDigits cs
      parseFracPart (sgn ++ c :: ds) rest
    else none

def hexVal (c : Char) : Option Nat :=
  if c.isDigit then some (c.toNat - 48)
  else if 97 ≤ c.toNat && c.toNat ≤ 102 then some (c.toNat - 87)
  else if 65 ≤ c.toNat && c.toNat ≤ 70 then some (c.toNat - 55)
  else none

/-- Body of a JSON string literal after the opening quote, producing the
decoded characters and the input after the closing quote.  Escapes are
decoded; a `\\uXXXX` outside the valid scalar range decodes through
`Char.ofNat`'s total fallback (no claim inspects such a value). -/
def parseJsonStringBody : Nat → List Char → Option (List Char × List Char)
  | 0, _ => none
  | _ + 1, [] => none
  | fuel + 1, c :: cs =>
    if c == dquoteC then some ([], cs)
    else if c == '\\' then
      match cs with
      | [] => none
      | e :: es =>
        if e == dquoteC || e == '\\' || e == '/' then
          (parseJsonStringBody fuel es).map fun (s, r) => (e :: s, r)
        else if e == 'b' then
          (parseJsonStringBody fuel es).map fun (s, r) => (Char.ofNat 8 :: s, r)
        else if e == 'f' then
          (parseJsonStringBody fuel es).map fun (s, r) => (Char.ofNat 12 :: s, r)
        else if e == 'n' then
          (parseJsonStringBody fuel es).map fun (s, r) => ('\n' :: s, r)
        else if e == 'r' then
          (parseJsonStringBody fuel es).map fun (s, r) => (Char.ofNat 13 :: s, r)
        else if e == 't' then
          (parseJsonStringBody fuel es).map fun (s, r) => ('\t' :: s, r)
        else if e == 'u' then
          match es with
          | h1 :: h2 :: h3 :: h4 :: es2 =>
            match hexVal h1, hexVal h2, hexVal h3, hexVal h4 with
            | some a, some b, some c2, some d =>
              (parseJsonStringBody fuel es2).map fun (s, r) =>
                (Char.ofNat (((a * 16 + b) * 16 + c2) * 16 + d) :: s, r)
            | _, _, _, _ => none
          | _ => none
        else none
    else if c.toNat < 32 then none
    else (parseJsonStringBody fuel cs).map fun (s, r) => (c :: s, r)

mutual

/-- One JSON value (leading whitespace allowed), fueled. -/
def parseJsonVal : Nat → List Char → Option (Json × List Char)
  | 0, _ => none
  | fuel + 1, l =>
    let l := skipWs l
    match l with
    | [] => none
    | c :: cs =>
      if c == dquoteC then
        (parseJsonStringBody fuel cs).map fun (s, r) => (Json.str (String.mk s), r)
      else if c == '[' then
        match skipWs cs with
        | d :: ds => if d == ']' then some (Json.arr [], ds)
                     else (parseJsonElems fuel cs).map fun (js, r) => (Json.arr js, r)
        | [] => none
      else if c == lcurlyC then
        match skipWs cs with
        | d :: ds => if d == rcurlyC then some (Json.obj [], ds)
                     else (parseJsonMembers fuel cs).map fun (ms, r) => (Json.obj ms, r)
        | [] => none
      else if startsWithL ['n', 'u', 'l', 'l'] l then some (Json.null, l.drop 4)
      else if startsWithL ['t', 'r', 'u', 'e'] l then some (Json.bool true, l.drop 4)
      else if startsWithL ['f', 'a', 'l', 's', 'e'] l then some (Json.bool false, l.drop 5)
      else
        (parseJsonNumber l).map fun (ds, r) => (Json.num (String.mk ds), r)

/-- Non-empty comma-separated element list of a JSON array, up to and
including the closing bracket. -/
def parseJsonElems : Nat → List Char → Option (List Json × List Char)
  | 0, _ => none
  | fuel + 1, l =>
    match parseJsonVal fuel l with
    | none => none
    | some (j, rest) =>
      match skipWs rest with
      | c :: cs =>
        if c == ',' then
          (parseJsonElems fuel cs).map fun (js, r) => (j :: js, r)
        else if c == ']' then some ([j], cs)
        else none
      | [] => none

/-- Non-empty member list of a JSON object, up to and including the
closing brace. -/
def parseJsonMembers : Nat → List Char → Option (List (String × Json) × List Char)
  | 0, _ => none
  | fuel + 1, l =>
    match skipWs l with
    | [] => none
    | c :: cs =>
      if c == dquoteC then
        match parseJsonStringBody fuel cs with
        | none => none
        | some (key, rest) =>
          match skipWs rest with
          | d :: ds =>
            if d == ':' then
              match parseJsonVal fuel ds with
              | none => none
              | some (v, rest2) =>
                match skipWs rest2 with
                | e :: es =>
                  if e == ',' then
                    (parseJsonMembers fuel es).map fun (ms, r) =>
                      ((String.mk key, v) :: ms, r)
                  else if e == rcurlyC then some ([(String.mk key, v)], es)
                  else none
                | [] => none
            else none
          | [] => none
      else none

end

/-- `JSON.parse`: one value, whole input consumed up to trailing
whitespace.  The fuel is generous: every two fuel steps consume at least
one input character. -/
def jsonParse (s : String) : Option Json :=
  match parseJsonVal (2 * s.data.length + 2) s.data with
  | some (j, rest) => if (skipWs rest).isEmpty then some j else none
  | none => none

/-- Lookup on a JS object built by repeated assignment (last write wins). -/
def objGet : List (String × Json) → String → Option Json
  | [], _ => none
  | (k0, v) :: rest, k =>
    match objGet rest k with
    | some v2 => some v2
    | none => if k0 == k then some v else none

/-- Assignment on a JS object: an existing key keeps its position and gets
the new value, a new key is appended. -/
def objSet : List (String × Json) → String → Json → List (String × Json)
  | [], k, v => [(k, v)]
  | (k0, v0) :: rest, k, v =>
    if k0 == k then (k0, v) :: rest else (k0, v0) :: objSet rest k v

/-! ## `src/js/post-loader.js` : front-matter parsing -/

/-- JS `value.slice(1, -1)`: drop the first and last characters (empty
when fewer than two characters remain). -/
def sliceInner (s : String) : String :=
  String.mk ((s.data.drop 1).dropLast)

def headIs (s : String) (c : Char) : Bool :=
  match s.data with
  | d :: _ => d == c
  | [] => false

def lastIs (s : String) (c : Char) : Bool :=
  match s.data.getLast? with
  | some d => d == c
  | none => false

/-- The quote-unwrapping step (`src/js/post-loader.js` lines 47-51):
`value.startsWith(q) && value.endsWith(q)` for either quote character,
then `value.slice(1, -1)`.  Note that a one-character value consisting of
a quote character passes the test (its single character is both first and
last) and is sliced to the empty string. -/
def stripQuotes (value : String) : String :=
  if (headIs value dquoteC && lastIs value dquoteC) ||
     (headIs value squoteC && lastIs value squoteC) then
    sliceInner value
  else value

def isQuoteChar (c : Char) : Bool :=
  c == squoteC || c == dquoteC

/-- The fallback per-element cleanup `replace(/^['"]|['"]$/g, '')`: remove
one leading quote character if present, and one trailing quote character
if one remains. -/
def stripEdgeQuotes (s : String) : String :=
  let l := s.data
  let l :=
    match l with
    | c :: rest => if isQuoteChar c then rest else l
    | [] => []
  let l :=
    match l.getLast? with
    | some c => if isQuoteChar c then l.dropLast else l
    | none => l
  String.mk l

/-- `value.startsWith('[') && value.endsWith(']')`. -/
def bracketWrapped (value : String) : Bool :=
  headIs value '[' && lastIs value ']'

/-- The `tags` branch (`src/js/post-loader.js` lines 54-62): try
`JSON.parse` on the bracket-wrapped value; on failure strip the brackets,
split on commas, trim each piece and strip one layer of edge quotes. -/
def parseTagsValue (value : String) : Json :=
  match jsonParse value with
  | some j => j
  | none =>
    Json.arr ((splitOnChar ',' (sliceInner value).data).map
      fun tag => Json.str (stripEdgeQuotes (trimStr (String.mk tag))))

/-- `line.indexOf(':')` (position of the first colon). -/
def colonIndexAux : List Char → Nat → Option Nat
  | [], _ => none
  | c :: cs, i => if c == ':' then some i else colonIndexAux cs (i + 1)

/-- One front-matter line (`src/js/post-loader.js` lines 41-66): a line
whose first colon sits at a positive index contributes
`metadata[key] = value` after trimming, quote-unwrapping and the `tags`
array handling; other lines are ignored. -/
def processLine (metadata : List (String × Json)) (line : String) :
    List (String × Json) :=
  match colonIndexAux line.data 0 with
  | some idx =>
    if 0 < idx then
      let key := trimStr (String.mk (line.data.take idx))
      let value := trimStr (String.mk (line.data.drop (idx + 1)))
      let value := stripQuotes value
      let v : Json :=
        if key == "tags" && bracketWrapped value then parseTagsValue value
        else Json.str value
      objSet metadata key v
    else metadata
  | none => metadata

/-- Result of `parseFrontMatter` (the source names the body field
`content`). -/
structure ParsedDoc where
  metadata : List (String × Json)
  content : String

def fmOpen : List Char := ['-', '-', '-', '\n']

def fmDelim : List Char := ['\n', '-', '-', '-', '\n']

/-- The regex match `/^---\n([\s\S]*?)\n---\n([\s\S]*)$/`: the input must
begin with a `---` line; the lazy group takes everything up to the
*first* later `---` line; the final group takes the rest. -/
def fmMatch (content : String) : Option (String × String) :=
  if startsWithL fmOpen content.data then
    match splitFirstL fmDelim (content.data.drop 4) with
    | some (block, body) => some (String.mk block, String.mk body)
    | none => none
  else none

/-- `parseFrontMatter` (`src/js/post-loader.js` lines 28-69). -/
def parseFrontMatter (content : String) : ParsedDoc :=
  match fmMatch content with
  | none => { metadata := [], content := content }
  | some (fm, body) =>
    { metadata := ((splitOnChar '\n' fm.data).map String.mk).foldl processLine []
      content := body }

/-! ## `src/js/app.js` : `loadPosts` at the raw-JSON level (claim C1) -/

/-- Result of `fetch('posts.json')` / `response.json()` as seen by
`loadPosts`. -/
inductive FetchOutcome where
  | unreachable
  | parseFail
  | parsed (j : Json)

/-- The page state `loadPosts` touches: the global `allPosts` (a JS
variable, so it can hold any JSON value), whether the catch-branch
replaced the loading indicator with the failure message, and whether the
success path completed. -/
structure AppState where
  allPosts : Json
  errorShown : Bool
  loaded : Bool

def initialAppState : AppState :=
  { allPosts := Json.arr [], errorShown := false, loaded := false }

/-- `extractTags` (`src/js/app.js` lines 52-60) on the raw value of
`allPosts`: `allPosts.forEach` raises a TypeError on a non-array, and
`post.tags` raises on a `null` element; otherwise a post contributes its
`tags` exactly when that field holds an array.  (The final sort of the
tag set is irrelevant to claim C1 and not tracked here; `extractTags`
above is the typed version used for claim C4.) -/
def extractTagsE : Json → Except Unit (List Json)
  | Json.arr posts =>
    posts.foldlM
      (fun acc post =>
        match post with
        | Json.null => Except.error ()
        | Json.obj fields =>
          match objGet fields "tags" with
          | some (Json.arr ts) =>
            Except.ok (ts.foldl (fun a t => if a.any (jsonBeq t) then a else a ++ [t]) acc)
          | _ => Except.ok acc
        | _ => Except.ok acc)
      []
  | _ => Except.error ()

/-- Whether `renderPosts(allPosts)` (`src/js/app.js` lines 137-169) raises
on an array that survived `extractTags`: the only raising access is
`post.tags.map` when `post.tags` is a truthy value without `.map` that
passes `post.tags.length > 0` — that is, a non-empty string. -/
def renderPostsThrows : Json → Bool
  | Json.arr posts =>
    posts.any fun post =>
      match post with
      | Json.obj fields =>
        match objGet fields "tags" with
        | some (Json.str s) => !(s == "")
        | _ => false
      | _ => false
  | _ => false

/-- `loadPosts` (`src/js/app.js` lines 21-47): on a reachable,
JSON-parseable response the parsed value is assigned to `allPosts`
*before* `extractTags`/rendering run; any exception from those lands in
the catch branch, which only replaces the loading indicator. -/
def loadPosts (outcome : FetchOutcome) (st : AppState) : AppState :=
  match outcome with
  | .unreachable => { st with errorShown := true }
  | .parseFail => { st with errorShown := true }
  | .parsed j =>
    let st := { st with allPosts := j }
    match extractTagsE j with
    | .error _ => { st with errorShown := true }
    | .ok _ =>
      if renderPostsThrows j then { st with errorShown := true }
      else { st with loaded := true }

/-! ## `src/js/search.js` : debounced search -/

/-- Operational model of `handleSearch` (`src/js/search.js` lines 17-31)
driven by the browser event loop.  Input events arrive as `(time, text)`
pairs in time order; the state carries the pending `setTimeout` callback
as `(fireTime, query)`.  Processing an event first lets a pending timer
whose deadline has passed fire (emitting its filter invocation), then —
as `handleSearch` does — trims the event's text, cancels any pending
timer (`clearTimeout`), and schedules the trimmed query `window` ms out
(`setTimeout`).  After the last event the surviving timer fires. -/
def runDebounce (window : Nat) (pending : Option (Nat × String)) :
    List (Nat × String) → List (Nat × String)
  | [] =>
    match pending with
    | some p => [p]
    | none => []
  | (t, s) :: rest =>
    match pending with
    | some (ft, q) =>
      if ft ≤ t then (ft, q) :: runDebounce window (some (t + window, trimStr s)) rest
      else runDebounce window (some (t + window, trimStr s)) rest
    | none => runDebounce window (some (t + window, trimStr s)) rest

/-- Declarative trailing-edge debounce, as the claim words it: exactly the
last event of every `window`-ms quiet period produces a filter
invocation, `window` ms after that event, carrying its trimmed text. -/
def debounceSpec (window : Nat) : List (Nat × String) → List (Nat × String)
  | [] => []
  | (t, s) :: rest =>
    match rest with
    | [] => [(t + window, trimStr s)]
    | (t2, _) :: _ =>
      if t + window ≤ t2 then (t + window, trimStr s) :: debounceSpec window rest
      else debounceSpec window rest

/-- The debounce window constant (`src/js/search.js` line 12). -/
def DEBOUNCE_DELAY : Nat := 300

/-! ## `src/js/search.js` (theme part) : dark/light controller -/

/-- Theme controller state: `saved` is the `localStorage` entry under
`THEME_KEY` (`none` = no persisted preference), `current` is the
`data-theme` attribute on the document element. -/
structure ThemeState where
  saved : Option String
  current : String
deriving DecidableEq, Repr

/-- `initTheme` (theme script lines 77-96, initial-resolution part):
apply the saved theme when present, otherwise follow the OS
`prefers-color-scheme: dark` media query. -/
def initTheme (osDark : Bool) (st : ThemeState) : ThemeState :=
  match st.saved with
  | some t => { st with current := t }
  | none => { st with current := if osDark then "dark" else "light" }

/-- The OS preference-change listener registered by `initTheme`: follow
the notification only when no theme is persisted at event time. -/
def osChange (m : Bool) (st : ThemeState) : ThemeState :=
  match st.saved with
  | some _ => st
  | none => { st with current := if m then "dark" else "light" }

/-- `toggleTheme` (theme script lines 113-119): flip the current theme,
apply it and persist it unconditionally. -/
def toggleTheme (st : ThemeState) : ThemeState :=
  let newTheme := if st.current == "dark" then "light" else "dark"
  { saved := some newTheme, current := newTheme }

/-- A whole stream of OS preference-change notifications, oldest first. -/
def osChanges (events : List Bool) (st : ThemeState) : ThemeState :=
  events.foldl (fun s m => osChange m s) st

/-! ## Helper lemmas for the filter theorems -/

theorem filter_true_eq (l : List Post) (p : Post → Bool) (h : ∀ x, p x = true) :
    l.filter p = l := by
  induction l with
  | nil => rfl
  | cons a t ih => simp [List.filter, h a, ih]

theorem filterPosts_eq_claim (posts : List Post) (activeTag : Option String)
    (query : String) :
    filterPosts posts activeTag query =
      posts.filter fun p => claimTagStep activeTag p && claimQueryStep query p := by
  have hTag :
      (if tagTruthy activeTag then
        posts.filter fun post =>
          match post.tags with
          | some ts => ts.contains (activeTag.getD "")
          | none => false
       else posts) = posts.filter (claimTagStep activeTag) := by
    match activeTag with
    | none =>
      rw [if_neg (by decide)]
      exact (filter_true_eq posts _ fun _ => rfl).symm
    | some t =>
      by_cases ht : t = ""
      · subst ht
        rw [if_neg (by decide)]
        refine (filter_true_eq posts _ fun x => ?_).symm
        simp [claimTagStep]
      · have htb : (t == "") = false := by simp [ht]
        simp only [tagTruthy, htb, Bool.not_false, if_pos rfl]
        apply List.filter_congr
        intro x _
        simp [claimTagStep, htb, Option.getD]
  unfold filterPosts
  simp only [hTag]
  by_cases hq : query = ""
  · subst hq
    simp only [beq_self_eq_true, if_pos rfl]
    apply List.filter_congr
    intro x _
    simp [claimQueryStep]
  · have hqb : (query == "") = false := by simp [hq]
    rw [if_neg (by simp [hqb])]
    rw [List.filter_filter]
    apply List.filter_congr
    intro x _
    simp [claimQueryStep, hqb, Bool.and_comm]

/-! ## Support lemmas: prefix matching and first-occurrence splitting -/

theorem startsWithL_eq_true_iff (p : List Char) :
    ∀ l : List Char, startsWithL p l = true ↔ ∃ t, l = p ++ t := by
  induction p with
  | nil =>
    intro l
    simp only [startsWithL, List.nil_append]
    exact ⟨fun _ => ⟨l, rfl⟩, fun _ => trivial⟩
  | cons a ps ih =>
    intro l
    cases l with
    | nil =>
      simp only [startsWithL, List.cons_append]
      constructor
      · intro h; cases h
      · rintro ⟨t, ht⟩; cases ht
    | cons c cs =>
      simp only [startsWithL, Bool.and_eq_true, beq_iff_eq, List.cons_append]
      constructor
      · rintro ⟨rfl, h⟩
        obtain ⟨t, rfl⟩ := (ih cs).mp h
        exact ⟨t, rfl⟩
      · rintro ⟨t, ht⟩
        injection ht with h1 h2
        exact ⟨h1.symm, (ih cs).mpr ⟨t, h2⟩⟩

theorem splitFirstL_eq_some (d : List Char) :
    ∀ l a b, splitFirstL d l = some (a, b) → l = a ++ d ++ b := by
  intro l
  induction l with
  | nil =>
    intro a b h
    unfold splitFirstL at h
    split at h
    · rename_i hs
      obtain ⟨t, ht⟩ := (startsWithL_eq_true_iff d []).mp hs
      obtain ⟨hd, htl⟩ := List.append_eq_nil.mp ht.symm
      injection h with h2
      injection h2 with ha hb
      subst hd; subst ha; subst hb
      rfl
    · cases h
  | cons c cs ih =>
    intro a b h
    unfold splitFirstL at h
    split at h
    · rename_i hs
      obtain ⟨t, ht⟩ := (startsWithL_eq_true_iff d (c :: cs)).mp hs
      injection h with h2
      injection h2 with ha hb
      subst ha
      rw [ht] at hb ⊢
      rw [List.drop_left d t] at hb
      subst hb
      simp
    · rename_i hs
      cases hrec : splitFirstL d cs with
      | some pr =>
        obtain ⟨pre, post⟩ := pr
        rw [hrec] at h
        injection h with h2
        injection h2 with ha hb
        subst ha; subst hb
        have := ih pre post hrec
        rw [this]
        simp
      | none => rw [hrec] at h; cases h

theorem splitFirstL_isSome_of_startsWith (d : List Char) (l : List Char)
    (h : startsWithL d l = true) : (splitFirstL d l).isSome = true := by
  cases l with
  | nil => unfold splitFirstL; rw [if_pos h]; rfl
  | cons c cs => unfold splitFirstL; rw [if_pos h]; rfl

theorem splitFirstL_isSome_of_decomp (d : List Char) :
    ∀ a b : List Char, (splitFirstL d (a ++ d ++ b)).isSome = true := by
  intro a
  induction a with
  | nil =>
    intro b
    apply splitFirstL_isSome_of_startsWith
    exact (startsWithL_eq_true_iff d (([] : List Char) ++ d ++ b)).mpr ⟨b, by simp⟩
  | cons c a2 ih =>
    intro b
    have hshape : (c :: a2) ++ d ++ b = c :: (a2 ++ d ++ b) := by simp
    rw [hshape]
    unfold splitFirstL
    split
    · rfl
    · obtain ⟨pr, hpr⟩ := Option.isSome_iff_exists.mp (ih b)
      obtain ⟨pre, post⟩ := pr
      rw [hpr]
      rfl

theorem fmMatch_eq_none_of_no_pattern (raw : String)
    (h : ¬ ∃ block body : List Char, raw.data = fmOpen ++ block ++ fmDelim ++ body) :
    fmMatch raw = none := by
  unfold fmMatch
  split
  · rename_i hs
    obtain ⟨t, ht⟩ := (startsWithL_eq_true_iff fmOpen raw.data).mp hs
    have hdrop : raw.data.drop 4 = t := by
      rw [ht]
      exact List.drop_left fmOpen t
    rw [hdrop]
    cases hsp : splitFirstL fmDelim t with
    | some pr =>
      exfalso
      obtain ⟨block, body⟩ := pr
      have hdec := splitFirstL_eq_some fmDelim t block body hsp
      exact h ⟨block, body, by rw [ht, hdec]; simp⟩
    | none => rfl
  · rfl

/-! ## Claim theorems -/

/-- Claim C5: `parseFrontMatter` is total, and whenever the input does not
decompose as `---`-line ++ block ++ `---`-line ++ body, the result carries
empty metadata and the whole unchanged input as the body; in particular on
"no delimiters here". -/
theorem parseFrontMatter_soft_fallback :
    (∀ raw : String,
      (¬ ∃ block body : List Char, raw.data = fmOpen ++ block ++ fmDelim ++ body) →
      parseFrontMatter raw = { metadata := [], content := raw }) ∧
    parseFrontMatter "no delimiters here" =
      { metadata := [], content := "no delimiters here" } := by
  constructor
  · intro raw h
    unfold parseFrontMatter
    rw [fmMatch_eq_none_of_no_pattern raw h]
  · rfl

/-- Witness for C5 at the concrete input "x" (too short to contain the
nine delimiter characters). -/
theorem parseFrontMatter_soft_fallback_witness :
    parseFrontMatter "x" = { metadata := [], content := "x" } :=
  parseFrontMatter_soft_fallback.1 "x" (by
    rintro ⟨block, body, hb⟩
    have hlen := congrArg List.length hb
    have hx : ("x".data).length = 1 := rfl
    rw [hx] at hlen
    simp only [List.length_append, fmOpen, fmDelim, List.length_cons, List.length_nil] at hlen
    omega)

theorem sliceInner_wrap (c : Char) (v : String) :
    sliceInner (String.mk (c :: (v.data ++ [c]))) = v := by
  show String.mk (((c :: (v.data ++ [c])).drop 1).dropLast) = v
  rw [List.drop_one, List.tail_cons, List.dropLast_concat]

theorem headIs_wrap (c : Char) (v : String) :
    headIs (String.mk (c :: (v.data ++ [c]))) c = true := by
  simp [headIs]

theorem lastIs_wrap (c : Char) (v : String) :
    lastIs (String.mk (c :: (v.data ++ [c]))) c = true := by
  show lastIs (String.mk (c :: (v.data ++ [c]))) c = true
  unfold lastIs
  show (match (c :: (v.data ++ [c])).getLast? with
        | some d => d == c
        | none => false) = true
  rw [← List.cons_append, List.getLast?_concat]
  simp

/-- Claim C6: in the `tags` branch the strict `JSON.parse` is attempted
first and decides the value when it succeeds; when it fails the value
degrades, without an error, to bracket-stripping, comma-splitting,
trimming and edge-quote-stripping; in particular the worked example from
the spec. -/
theorem parseTags_strict_then_fallback :
    (∀ (v : String) (j : Json), jsonParse v = some j → parseTagsValue v = j) ∧
    (∀ v : String, bracketWrapped v = true → jsonParse v = none →
      parseTagsValue v =
        Json.arr ((splitOnChar ',' (sliceInner v).data).map
          fun tag => Json.str (stripEdgeQuotes (trimStr (String.mk tag))))) ∧
    jsonParse "[a, b]" = none ∧
    parseFrontMatter "---\ntitle: Hello\ntags: [a, b]\n---\nBody text" =
      { metadata := [("title", Json.str "Hello"),
                     ("tags", Json.arr [Json.str "a", Json.str "b"])]
        content := "Body text" } := by
  refine ⟨?_, ?_, rfl, rfl⟩
  · intro v j h
    unfold parseTagsValue
    rw [h]
  · intro v _ h
    unfold parseTagsValue
    rw [h]

/-- Witness for C6: the fallback equation applied at the concrete
malformed array value "[a, b]". -/
theorem parseTags_strict_then_fallback_witness :
    parseTagsValue "[a, b]" = Json.arr [Json.str "a", Json.str "b"] := by
  have h := parseTags_strict_then_fallback.2.1 "[a, b]" rfl rfl
  rw [h]
  rfl

/-- Claim C7 counterexample: a value consisting of one double-quote
character passes the code's wrap test (its single character is both the
first and the last) and is sliced to the empty string, so it does not
remain unchanged as the claim states. -/
theorem stripQuotes_single_quote_cex :
    stripQuotes (String.mk [dquoteC]) = "" ∧ String.mk [dquoteC] ≠ "" := by
  refine ⟨rfl, ?_⟩
  intro h
  have hlen := congrArg (fun s => s.data.length) h
  simp at hlen

/-- Claim C7 (amended): a value wrapped in a leading and a distinct
trailing quote of the same kind loses exactly that one layer; a value
failing the code's wrap test is unchanged; and — the correction — a value
that is a single quote character also passes the test and becomes the
empty string. -/
theorem stripQuotes_amended :
    (∀ (c : Char) (v : String), (c = dquoteC ∨ c = squoteC) →
      stripQuotes (String.mk (c :: (v.data ++ [c]))) = v) ∧
    (∀ v : String,
      ((headIs v dquoteC && lastIs v dquoteC) ||
       (headIs v squoteC && lastIs v squoteC)) = false →
      stripQuotes v = v) ∧
    (∀ c : Char, (c = dquoteC ∨ c = squoteC) → stripQuotes (String.mk [c]) = "") := by
  refine ⟨?_, ?_, ?_⟩
  · intro c v hc
    unfold stripQuotes
    rcases hc with rfl | rfl
    · rw [if_pos]
      · exact sliceInner_wrap _ v
      · rw [headIs_wrap, lastIs_wrap]
        simp
    · rw [if_pos]
      · exact sliceInner_wrap _ v
      · rw [headIs_wrap, lastIs_wrap]
        simp
  · intro v h
    unfold stripQuotes
    rw [if_neg]
    simp [h]
  · intro c hc
    rcases hc with rfl | rfl <;> rfl

/-- Witness for C7: one layer stripped from a double-quoted value, and an
unquoted value untouched. -/
theorem stripQuotes_amended_witness :
    stripQuotes (String.mk (dquoteC :: ("ab".data ++ [dquoteC]))) = "ab" ∧
    stripQuotes "plain" = "plain" :=
  ⟨stripQuotes_amended.1 dquoteC "ab" (Or.inl rfl),
   stripQuotes_amended.2.1 "plain" rfl⟩

/-- Claim C2 counterexample: with the tag `some ""` — present, but empty —
the tag step is skipped (the code tests JS truthiness, and `''` is
falsy), so a post whose tags do not contain `""` still passes. -/
theorem filterPosts_empty_tag_cex :
    filterPosts [post0] (some "") "" = [post0] ∧
    post0.tags = some ["a"] ∧
    ¬ ("" ∈ (["a"] : List String)) := by
  refine ⟨rfl, rfl, ?_⟩
  simp

/-- Claim C2 (amended): `filterPosts` equals one pass of the conjunction
of the claim's two step predicates — where the tag step constrains
exactly when the tag is present *and non-empty* — and its output is a
subsequence of the input in original order. -/
theorem filterPosts_amended :
    ∀ (posts : List Post) (activeTag : Option String) (query : String),
      filterPosts posts activeTag query =
        posts.filter (fun p => claimTagStep activeTag p && claimQueryStep query p) ∧
      (filterPosts posts activeTag query).Sublist posts := by
  intro posts activeTag query
  refine ⟨filterPosts_eq_claim posts activeTag query, ?_⟩
  rw [filterPosts_eq_claim posts activeTag query]
  exact List.filter_sublist posts

/-- Claim C3: a tag click recomputes the visible list with the *default
empty search query* — the rendered list equals the tag-only filter of the
catalog, and the text sitting in the search input has no influence on
it. -/
theorem clickTag_ignores_search_text :
    ∀ (st : PageState) (selectedTag : String),
      (clickTag selectedTag st).visible =
        filterPosts st.allPosts ((clickTag selectedTag st).activeTag) "" ∧
      ∀ s : String,
        (clickTag selectedTag { st with searchText := s }).visible =
          (clickTag selectedTag st).visible := by
  intro st selectedTag
  exact ⟨rfl, fun _ => rfl⟩

/-- Claim C10 counterexample: from a state where tag "a" is already
active, clicking "a" twice does not return to the unfiltered state — the
first click clears the tag and the second re-selects it. -/
theorem handleTagClick_double_cex :
    handleTagClick "a" (handleTagClick "a" (some "a")) = some "a" ∧
    handleTagClick "a" (handleTagClick "a" (some "a")) ≠ none := by
  refine ⟨by decide, by decide⟩

/-- Claim C10 (amended): clicking the currently active tag clears it;
clicking the sentinel "all" button (empty `data-tag`) always clears; and
clicking any tag twice in a row returns to the unfiltered state provided
the tag was not already active before the first click (when it was, the
second click re-selects it, as the counterexample shows). -/
theorem handleTagClick_toggle_amended :
    (∀ t : String, handleTagClick t (some t) = none) ∧
    (∀ a : Option String, handleTagClick "" a = none) ∧
    (∀ (t : String) (a : Option String), a ≠ some t →
      handleTagClick t (handleTagClick t a) = none) := by
  have h1 : ∀ t : String, handleTagClick t (some t) = none := by
    intro t
    simp [handleTagClick]
  have h2 : ∀ a : Option String, handleTagClick "" a = none := by
    intro a
    cases a with
    | none => rfl
    | some s =>
      by_cases hs : s = ""
      · subst hs; rfl
      · simp [handleTagClick, tagTruthy, hs]
  refine ⟨h1, h2, ?_⟩
  intro t a ha
  by_cases ht : t = ""
  · subst ht; exact h2 _
  · have hinner : handleTagClick t a = some t := by
      have hne : (a == some t) = false := beq_eq_false_iff_ne.mpr ha
      simp [handleTagClick, hne, ht]
    rw [hinner]
    exact h1 t

/-- Witness for C10: clicking "a" twice from the no-filter state ends
unfiltered. -/
theorem handleTagClick_toggle_amended_witness :
    handleTagClick "a" (handleTagClick "a" none) = none :=
  handleTagClick_toggle_amended.2.2 "a" none (by simp)

theorem mem_addToSet (acc : List String) (t x : String) :
    x ∈ addToSet acc t ↔ x ∈ acc ∨ x = t := by
  unfold addToSet
  split
  · rename_i h
    have ht : t ∈ acc := List.elem_iff.mp h
    constructor
    · exact Or.inl
    · rintro (hx | rfl)
      · exact hx
      · exact ht
  · simp [List.mem_append]

theorem nodup_addToSet (acc : List String) (t : String) (h : acc.Nodup) :
    (addToSet acc t).Nodup := by
  unfold addToSet
  split
  · exact h
  · rename_i hc
    have ht : t ∉ acc := fun hmem => hc (List.elem_iff.mpr hmem)
    rw [List.nodup_append]
    refine ⟨h, List.nodup_singleton t, ?_⟩
    intro a hmem hmem2
    rw [List.mem_singleton] at hmem2
    subst hmem2
    exact ht hmem

theorem tagsFold_mem (ts : List String) :
    ∀ acc x, x ∈ ts.foldl addToSet acc ↔ x ∈ acc ∨ x ∈ ts := by
  induction ts with
  | nil => simp
  | cons t ts2 ih =>
    intro acc x
    simp only [List.foldl_cons]
    rw [ih, mem_addToSet]
    simp only [List.mem_cons]
    tauto

theorem tagsFold_nodup (ts : List String) :
    ∀ acc, acc.Nodup → (ts.foldl addToSet acc).Nodup := by
  induction ts with
  | nil => exact fun _ h => h
  | cons t ts2 ih =>
    intro acc h
    simp only [List.foldl_cons]
    exact ih _ (nodup_addToSet acc t h)

theorem postsFold_mem (posts : List Post) :
    ∀ (acc : List String) (x : String),
      (x ∈ posts.foldl
        (fun acc post =>
          match post.tags with
          | some ts => ts.foldl addToSet acc
          | none => acc) acc) ↔
      x ∈ acc ∨ ∃ p ∈ posts, ∃ ts, p.tags = some ts ∧ x ∈ ts := by
  induction posts with
  | nil => simp
  | cons p ps ih =>
    intro acc x
    cases hp : p.tags with
    | none =>
      simp only [List.foldl_cons, hp]
      rw [ih]
      constructor
      · rintro (h | ⟨q, hq, ts, hts, hx⟩)
        · exact Or.inl h
        · exact Or.inr ⟨q, List.mem_cons_of_mem _ hq, ts, hts, hx⟩
      · rintro (h | ⟨q, hq, ts, hts, hx⟩)
        · exact Or.inl h
        · rcases List.mem_cons.mp hq with rfl | hq2
          · rw [hp] at hts; cases hts
          · exact Or.inr ⟨q, hq2, ts, hts, hx⟩
    | some ts0 =>
      simp only [List.foldl_cons, hp]
      rw [ih, tagsFold_mem]
      constructor
      · rintro ((hacc | hts0) | ⟨q, hq, ts, hts, hx⟩)
        · exact Or.inl hacc
        · exact Or.inr ⟨p, List.mem_cons_self p ps, ts0, hp, hts0⟩
        · exact Or.inr ⟨q, List.mem_cons_of_mem _ hq, ts, hts, hx⟩
      · rintro (hacc | ⟨q, hq, ts, hts, hx⟩)
        · exact Or.inl (Or.inl hacc)
        · rcases List.mem_cons.mp hq with rfl | hq2
          · rw [hp] at hts
            injection hts with hts
            subst hts
            exact Or.inl (Or.inr hx)
          · exact Or.inr ⟨q, hq2, ts, hts, hx⟩

theorem postsFold_nodup (posts : List Post) :
    ∀ acc : List String, acc.Nodup →
      (posts.foldl
        (fun acc post =>
          match post.tags with
          | some ts => ts.foldl addToSet acc
          | none => acc) acc).Nodup := by
  induction posts with
  | nil => exact fun _ h => h
  | cons p ps ih =>
    intro acc h
    cases hp : p.tags with
    | none => simp only [List.foldl_cons, hp]; exact ih _ h
    | some ts0 => simp only [List.foldl_cons, hp]; exact ih _ (tagsFold_nodup ts0 acc h)

/-- Claim C4: `extractTags` returns a strictly ascending, duplicate-free
sequence whose members are exactly the strings appearing in some post's
`tags` (posts whose `tags` field is absent or not an array contribute
nothing). -/
theorem extractTags_sorted_dedup_complete :
    ∀ posts : List Post,
      (extractTags posts).Sorted (· < ·) ∧
      (extractTags posts).Nodup ∧
      (∀ s : String, s ∈ extractTags posts ↔
        ∃ p ∈ posts, ∃ ts, p.tags = some ts ∧ s ∈ ts) := by
  intro posts
  have hrw : extractTags posts = List.insertionSort (· ≤ ·)
      (posts.foldl
        (fun acc post =>
          match post.tags with
          | some ts => ts.foldl addToSet acc
          | none => acc) []) := rfl
  rw [hrw]
  have hnodupL := postsFold_nodup posts [] List.nodup_nil
  have hperm := List.perm_insertionSort (α := String) (· ≤ ·)
    (posts.foldl
      (fun acc post =>
        match post.tags with
        | some ts => ts.foldl addToSet acc
        | none => acc) [])
  have hsortle := List.sorted_insertionSort (α := String) (· ≤ ·)
    (posts.foldl
      (fun acc post =>
        match post.tags with
        | some ts => ts.foldl addToSet acc
        | none => acc) [])
  have hnodup : (List.insertionSort (· ≤ ·) (posts.foldl
      (fun acc post =>
        match post.tags with
        | some ts => ts.foldl addToSet acc
        | none => acc) [])).Nodup := hperm.nodup_iff.mpr hnodupL
  refine ⟨?_, hnodup, ?_⟩
  · exact (hsortle.and hnodup).imp fun h => lt_of_le_of_ne h.1 h.2
  · intro s
    rw [hperm.mem_iff, postsFold_mem]
    simp

theorem runDebounce_pending (w : Nat) :
    ∀ (rest : List (Nat × String)) (t : Nat) (s : String),
      runDebounce w (some (t + w, trimStr s)) rest = debounceSpec w ((t, s) :: rest) := by
  intro rest
  induction rest with
  | nil => intro t s; rfl
  | cons e rest2 ih =>
    obtain ⟨t2, s2⟩ := e
    intro t s
    simp only [runDebounce, debounceSpec]
    split
    · rw [ih t2 s2]
      simp only [debounceSpec]
    · rw [ih t2 s2]
      simp only [debounceSpec]

/-- Claim C8: the search handler is a trailing-edge debounce — the
operational timer model produces exactly the declarative "last event of
each quiet window, `window` ms later, with trimmed text" sequence; in
particular events at t = 0, 100, 150 ms with the source's 300 ms window
yield exactly one invocation, at t = 450 ms, with the last event's
trimmed text. -/
theorem handleSearch_trailing_debounce :
    (∀ (w : Nat) (events : List (Nat × String)),
      runDebounce w none events = debounceSpec w events) ∧
    (∀ a b c : String,
      runDebounce DEBOUNCE_DELAY none [(0, a), (100, b), (150, c)] =
        [(450, trimStr c)]) := by
  constructor
  · intro w events
    cases events with
    | nil => rfl
    | cons e rest =>
      obtain ⟨t, s⟩ := e
      exact runDebounce_pending w rest t s
  · intro a b c
    rfl

theorem osChange_of_saved (st : ThemeState) (x : String) (h : st.saved = some x)
    (m : Bool) : osChange m st = st := by
  unfold osChange
  rw [h]

theorem osChanges_of_saved :
    ∀ (events : List Bool) (st : ThemeState), st.saved.isSome = true →
      osChanges events st = st := by
  intro events
  induction events with
  | nil => intro st _; rfl
  | cons m rest ih =>
    intro st h
    obtain ⟨x, hx⟩ := Option.isSome_iff_exists.mp h
    show osChanges rest (osChange m st) = st
    rw [osChange_of_saved st x hx m]
    exact ih st h

/-- Claim C9: with no persisted preference the initial state follows the
OS color scheme and OS changes are mirrored live; a toggle persists the
chosen state, and once persisted every later OS change notification is
ignored — in particular, after toggling away from dark the state stays
"light" under any stream of OS notifications. -/
theorem theme_controller_claims :
    (∀ st : ThemeState, st.saved = none → ∀ osDark : Bool,
      (initTheme osDark st).current = (if osDark then "dark" else "light")) ∧
    (∀ st : ThemeState, st.saved = none → ∀ m : Bool,
      (osChange m st).current = (if m then "dark" else "light")) ∧
    (∀ st : ThemeState, (toggleTheme st).saved = some (toggleTheme st).current) ∧
    (∀ (st : ThemeState) (events : List Bool),
      osChanges events (toggleTheme st) = toggleTheme st) ∧
    (∀ st : ThemeState, st.current = "dark" →
      (toggleTheme st).current = "light" ∧
      ∀ events : List Bool, (osChanges events (toggleTheme st)).current = "light") := by
  refine ⟨?_, ?_, ?_, ?_, ?_⟩
  · intro st h osDark
    simp [initTheme, h]
  · intro st h m
    simp [osChange, h]
  · intro st
    rfl
  · intro st events
    exact osChanges_of_saved events (toggleTheme st) rfl
  · intro st h
    have hlt : (toggleTheme st).current = "light" := by simp [toggleTheme, h]
    refine ⟨hlt, fun events => ?_⟩
    rw [osChanges_of_saved events (toggleTheme st) rfl, hlt]

/-- Witness for C9: OS-dark start resolves dark; toggling from dark then
receiving OS notifications leaves the state light. -/
theorem theme_controller_claims_witness :
    (initTheme true { saved := none, current := "light" }).current = "dark" ∧
    (osChanges [true, false, true]
      (toggleTheme { saved := none, current := "dark" })).current = "light" :=
  ⟨(theme_controller_claims.1 { saved := none, current := "light" } rfl true).trans rfl,
   (theme_controller_claims.2.2.2.2 { saved := none, current := "dark" } rfl).2
     [true, false, true]⟩

theorem extractTagsE_error_of_not_arr (j : Json)
    (h : ∀ elems : List Json, j ≠ Json.arr elems) :
    extractTagsE j = Except.error () := by
  cases j with
  | arr elems => exact absurd rfl (h elems)
  | null => rfl
  | bool b => rfl
  | num r => rfl
  | str s => rfl
  | obj f => rfl

/-- Claim C1 counterexample: a body that parses as JSON but is not an
array (here the JSON string "oops") surfaces the failure *and* leaves
`allPosts` holding the parsed non-catalog value — the post array is not
unchanged; and a body that is a JSON array of non-Post-shaped records
(here `[1]`) is accepted without any surfaced failure. -/
theorem loadPosts_mutation_cex :
    (loadPosts (.parsed (Json.str "oops")) initialAppState).errorShown = true ∧
    (loadPosts (.parsed (Json.str "oops")) initialAppState).allPosts ≠
      initialAppState.allPosts ∧
    (loadPosts (.parsed (Json.arr [Json.num "1"])) initialAppState).errorShown = false ∧
    (loadPosts (.parsed (Json.arr [Json.num "1"])) initialAppState).loaded = true :=
  ⟨rfl, fun h => Json.noConfusion h, rfl, rfl⟩

/-- Claim C1 (amended): an unreachable resource or a non-JSON body
surfaces the failure with `allPosts` untouched; but a body that parses as
JSON is assigned to `allPosts` before any shape validation, so a
non-array body (or one whose records make tag extraction raise) surfaces
the failure while `allPosts` keeps the parsed value; a JSON array whose
traversal and rendering do not raise loads without any shape check. -/
theorem loadPosts_amended :
    (∀ st : AppState, loadPosts .unreachable st = { st with errorShown := true }) ∧
    (∀ st : AppState, loadPosts .parseFail st = { st with errorShown := true }) ∧
    (∀ (st : AppState) (j : Json), (loadPosts (.parsed j) st).allPosts = j) ∧
    (∀ (st : AppState) (j : Json), extractTagsE j = Except.error () →
      loadPosts (.parsed j) st = { st with allPosts := j, errorShown := true }) ∧
    (∀ (st : AppState) (j : Json), (∀ elems : List Json, j ≠ Json.arr elems) →
      (loadPosts (.parsed j) st).errorShown = true) ∧
    (∀ (st : AppState) (j : Json) (ts : List Json), extractTagsE j = Except.ok ts →
      renderPostsThrows j = false →
      loadPosts (.parsed j) st = { st with allPosts := j, loaded := true }) := by
  have h4 : ∀ (st : AppState) (j : Json), extractTagsE j = Except.error () →
      loadPosts (.parsed j) st = { st with allPosts := j, errorShown := true } := by
    intro st j h
    simp only [loadPosts, h]
  refine ⟨fun _ => rfl, fun _ => rfl, ?_, h4, ?_, ?_⟩
  · intro st j
    simp only [loadPosts]
    cases hE : extractTagsE j with
    | error e => rfl
    | ok ts =>
      by_cases hR : renderPostsThrows j = true
      · rw [if_pos hR]
      · rw [if_neg hR]
  · intro st j h
    rw [h4 st j (extractTagsE_error_of_not_arr j h)]
  · intro st j ts hE hR
    simp only [loadPosts, hE]
    rw [if_neg (by simp [hR])]

/-- Witness for C1 (amended): the non-array JSON body "x" ends with the
failure shown and `allPosts` replaced by that value. -/
theorem loadPosts_amended_witness :
    loadPosts (.parsed (Json.str "x")) initialAppState =
      { initialAppState with allPosts := Json.str "x", errorShown := true } :=
  loadPosts_amended.2.2.2.1 initialAppState (Json.str "x") rfl
